import Mathlib

/-!
Verification of the ACO solver of `src/pants/solver.py` (class `Solver`).
The pheromone field of the world is embedded as a total map from edge keys
to rationals; the `Ant` collaborator (whose file is not in the source tree)
is modelled from the spec as the sequence of moves its stochastic selection
will produce, together with the state the solver reads back.
-/

namespace Pants

/-- Pheromone field of the world: the mutable `pheromone` attribute of
`world.edges`, one rational level per edge key. -/
abbrev PheroField := Nat → ℚ

/-- Solver parameters, from `Solver.__init__` (solver.py 37-44); `alpha` and
`beta` are consumed only by the Ant and so do not appear in the solver's own
update rules. -/
structure Params where
  rho : ℚ
  q : ℚ
  t0 : ℚ
  elite : ℚ
deriving DecidableEq

/-- Modelled from the spec: the `Ant` collaborator (`ant.py` is not under
`src/`).  From the solver's viewpoint an ant is `script`, the future edges
its stochastic selection will commit to (one realization of its random
choices), together with the state the solver reads: `moves`, the edges
traversed so far, and `distance`, the accumulated tour length. -/
structure SimAnt where
  script : List Nat
  moves : List Nat
  distance : ℚ
deriving DecidableEq, Inhabited

/-- Modelled from the spec: `Ant.can_move()` is true iff a legal move
remains, i.e. while the script is not exhausted. -/
def canMove (a : SimAnt) : Bool := !a.script.isEmpty

/-- Modelled from the spec: `Ant.clone()` is a deep, independent copy. -/
def cloneAnt (a : SimAnt) : SimAnt := ⟨a.script, a.moves, a.distance⟩

/-- Write one edge's pheromone level (assignment to
`world.edges[m].pheromone`). -/
def updEdge (w : PheroField) (m : Nat) (v : ℚ) : PheroField :=
  fun e => if e = m then v else w e

/-- `reset_pheromone` (solver.py 46-50): every edge's pheromone becomes
`t0`, whatever it was. -/
def resetPheromone (ps : Params) (_w : PheroField) : PheroField :=
  fun _ => ps.t0

/-- One committed move inside `find_solutions` (solver.py 170-172):
`m = ant.move()` (modelled from the spec: the ant commits the next scripted
edge, appends it to its `moves` and adds its length `L m` to `distance`)
followed by `self.world.edges[m].pheromone *= self.rho`. -/
def commitMove (rho : ℚ) (L : Nat → ℚ) (a : SimAnt) (w : PheroField) :
    SimAnt × PheroField :=
  match a.script with
  | [] => (a, w)
  | e :: rest =>
    (⟨rest, a.moves ++ [e], a.distance + L e⟩, updEdge w e (w e * rho))

/-- One pass of the `for ant in ants` body in `find_solutions`
(solver.py 168-174): every ant that can move commits one move (with the
local pheromone decay); an ant that cannot move is counted in `ants_done`,
the third component. -/
def passAnts (rho : ℚ) (L : Nat → ℚ) :
    List SimAnt → PheroField → List SimAnt × PheroField × Nat
  | [], w => ([], w, 0)
  | a :: rest, w =>
    if canMove a then
      let p := commitMove rho L a w
      let r := passAnts rho L rest p.2
      (p.1 :: r.1, r.2.1, r.2.2)
    else
      let r := passAnts rho L rest w
      (a :: r.1, r.2.1, r.2.2 + 1)

/-- Total number of scripted moves still to be taken by a colony. -/
def totalScript (ants : List SimAnt) : Nat :=
  (ants.map (fun a => a.script.length)).sum

theorem passAnts_length (rho : ℚ) (L : Nat → ℚ) (ants : List SimAnt)
    (w : PheroField) : (passAnts rho L ants w).1.length = ants.length := by
  induction ants generalizing w with
  | nil => rfl
  | cons a rest ih =>
    by_cases h : canMove a <;> simp [passAnts, h, ih]

theorem passAnts_done_le (rho : ℚ) (L : Nat → ℚ) (ants : List SimAnt)
    (w : PheroField) : (passAnts rho L ants w).2.2 ≤ ants.length := by
  induction ants generalizing w with
  | nil => simp [passAnts]
  | cons a rest ih =>
    by_cases h : canMove a
    · simp only [passAnts, h, if_true]
      exact Nat.le_succ_of_le (ih _)
    · simp only [passAnts, h, if_false, Bool.false_eq_true]
      exact Nat.succ_le_succ (ih _)

theorem totalScript_cons (a : SimAnt) (rest : List SimAnt) :
    totalScript (a :: rest) = a.script.length + totalScript rest := by
  simp [totalScript]

theorem commitMove_script (rho : ℚ) (L : Nat → ℚ) (a : SimAnt)
    (w : PheroField) (h : canMove a = true) :
    (commitMove rho L a w).1.script.length + 1 = a.script.length := by
  cases hs : a.script with
  | nil => simp [canMove, hs] at h
  | cons e rest => simp [commitMove, hs]

theorem passAnts_total_le (rho : ℚ) (L : Nat → ℚ) (ants : List SimAnt)
    (w : PheroField) :
    totalScript (passAnts rho L ants w).1 ≤ totalScript ants := by
  induction ants generalizing w with
  | nil => simp [passAnts]
  | cons a rest ih =>
    by_cases h : canMove a
    · have hc := commitMove_script rho L a w h
      simp only [passAnts, h, if_true]
      rw [totalScript_cons, totalScript_cons]
      have := ih (commitMove rho L a w).2
      omega
    · simp only [passAnts, h, if_false, Bool.false_eq_true]
      rw [totalScript_cons, totalScript_cons]
      have := ih w
      omega

theorem passAnts_total_lt (rho : ℚ) (L : Nat → ℚ) (ants : List SimAnt)
    (w : PheroField) (h : (passAnts rho L ants w).2.2 < ants.length) :
    totalScript (passAnts rho L ants w).1 < totalScript ants := by
  induction ants generalizing w with
  | nil => simp [passAnts] at h
  | cons a rest ih =>
    by_cases hm : canMove a
    · have hc := commitMove_script rho L a w hm
      simp only [passAnts, hm, if_true]
      rw [totalScript_cons, totalScript_cons]
      have := passAnts_total_le rho L rest (commitMove rho L a w).2
      omega
    · simp only [passAnts, hm, if_false, Bool.false_eq_true] at h ⊢
      rw [totalScript_cons, totalScript_cons]
      have hlt : (passAnts rho L rest w).2.2 < rest.length := by
        simpa using Nat.lt_of_succ_lt_succ h
      have := ih w hlt
      omega

/-- The `while ants_done < len(ants)` loop of `find_solutions`
(solver.py 167-174). -/
def fsLoop (rho : ℚ) (L : Nat → ℚ) (ants : List SimAnt) (w : PheroField)
    (done : Nat) : List SimAnt × PheroField :=
  if h : done < ants.length then
    let r := passAnts rho L ants w
    fsLoop rho L r.1 r.2.1 r.2.2
  else (ants, w)
termination_by 2 * totalScript ants + (if done < ants.length then 1 else 0)
decreasing_by
  simp only [if_pos h]
  by_cases h2 : (passAnts rho L ants w).2.2 < (passAnts rho L ants w).1.length
  · have hlt : totalScript (passAnts rho L ants w).1 < totalScript ants := by
      apply passAnts_total_lt
      simpa [passAnts_length] using h2
    simp only [if_pos h2]
    omega
  · have hle := passAnts_total_le rho L ants w
    simp only [if_neg h2]
    omega

/-- `find_solutions` (solver.py 158-174): drive every ant to completion,
starting from `ants_done = 0`. -/
def findSolutions (rho : ℚ) (L : Nat → ℚ) (ants : List SimAnt)
    (w : PheroField) : List SimAnt × PheroField :=
  fsLoop rho L ants w 0

/-- The state an ant reaches once its script is exhausted: no moves left,
every scripted edge appended to `moves`, their lengths added to
`distance`. -/
def finishAnt (L : Nat → ℚ) (a : SimAnt) : SimAnt :=
  ⟨[], a.moves ++ a.script, a.distance + (a.script.map L).sum⟩

/-- Modelled from the spec: ants are totally ordered by `distance`,
ascending (the `Ant` ordering used by Python's `sorted`); insertion places
a new ant after every already placed ant of smaller or equal distance, so
the sort is stable, as Python's `sorted` is. -/
def insAnt (a : SimAnt) : List SimAnt → List SimAnt
  | [] => [a]
  | b :: bs => if b.distance ≤ a.distance then b :: insAnt a bs else a :: b :: bs

/-- Python `sorted(ants)` under the ant ordering: stable, ascending by
distance. -/
def sortAnts (l : List SimAnt) : List SimAnt :=
  l.foldl (fun acc a => insAnt a acc) []

/-- `get_best_ant` (solver.py 194-202): `sorted(ants)[0]`; `none` where
Python raises `IndexError` on an empty colony. -/
def getBestAnt (ants : List SimAnt) : Option SimAnt :=
  (sortAnts ants).head?

/-- The best ant of a nonempty colony (the value `get_best_ant` returns
when it does not raise). -/
def bestOf (ants : List SimAnt) : SimAnt :=
  (sortAnts ants).headI

/-- The better half selected by `update_scent` (solver.py 185):
`sorted(ants)[:len(ants) // 2]`. -/
def selHalf (ants : List SimAnt) : List SimAnt :=
  (sortAnts ants).take (ants.length / 2)

/-- The inner `for move in a.moves` loop of `update_scent`
(solver.py 188-192) over an explicit move list, with `p` the ant's deposit
`q / a.distance`: each edge's pheromone becomes
`max(t0, (1 - rho) * current + p)`. -/
def depositOn (ps : Params) (p : ℚ) (ms : List Nat) (w : PheroField) :
    PheroField :=
  ms.foldl (fun w m => updEdge w m (max ps.t0 ((1 - ps.rho) * w m + p))) w

/-- The deposit of one qualifying ant in `update_scent` (solver.py 186-192):
`p = q / a.distance`, then every edge of the ant's moves is updated. -/
def depositAnt (ps : Params) (a : SimAnt) (w : PheroField) : PheroField :=
  depositOn ps (ps.q / a.distance) a.moves w

/-- `update_scent` (solver.py 176-192): the better half of the colony, in
sorted order, deposits on the edges of its moves. -/
def updateScent (ps : Params) (ants : List SimAnt) (w : PheroField) :
    PheroField :=
  (selHalf ants).foldl (fun w a => depositAnt ps a w) w

/-- The `for m in ant.moves` loop of `trace_elite` (solver.py 214-216) over
an explicit move list: each edge's pheromone is increased by the constant
amount `c`. -/
def addOn (c : ℚ) (ms : List Nat) (w : PheroField) : PheroField :=
  ms.foldl (fun w m => updEdge w m (w m + c)) w

/-- `trace_elite` (solver.py 204-216): if `elite` is truthy, add
`elite * q / ant.distance` to each edge on the ant's move list. -/
def traceElite (ps : Params) (a : SimAnt) (w : PheroField) : PheroField :=
  if ps.elite ≠ 0 then addOn (ps.elite * ps.q / a.distance) a.moves w
  else w

/-- One iteration of the loop body of `solve` (solver.py 63-74), the colony
of the iteration given as `col` (one realization of the stochastic
construction): drive the ants, update scent, track the global best by
strict distance improvement (cloning on replacement), trace the elite on
the *global* best.  `none` where Python raises (`get_best_ant` on an empty
colony). -/
def solveStep (ps : Params) (L : Nat → ℚ) (col : List SimAnt)
    (st : Option SimAnt × PheroField) : Option (Option SimAnt × PheroField) :=
  let fs := findSolutions ps.rho L col st.2
  let w2 := updateScent ps fs.1 fs.2
  match getBestAnt fs.1 with
  | none => none
  | some lb =>
    let gb := match st.1 with
      | none => cloneAnt lb
      | some g => if lb.distance < g.distance then cloneAnt lb else g
    let w3 := if ps.elite ≠ 0 then traceElite ps gb w2 else w2
    some (some gb, w3)

/-- The `for i in range(limit)` loop of `solve` (solver.py 63-74), one
colony per iteration. -/
def solveLoop (ps : Params) (L : Nat → ℚ) :
    List (List SimAnt) → Option SimAnt × PheroField →
    Option (Option SimAnt × PheroField)
  | [], st => some st
  | col :: cols, st =>
    match solveStep ps L col st with
    | none => none
    | some st2 => solveLoop ps L cols st2

/-- `solve(limit)` (solver.py 52-75): reset the pheromone, run `limit`
iterations (`cols` lists the colony of each iteration, so
`cols.length = limit`), return the final global best. -/
def solveRun (ps : Params) (L : Nat → ℚ) (cols : List (List SimAnt)) :
    Option (Option SimAnt) :=
  (solveLoop ps L cols (none, resetPheromone ps (fun _ => 0))).map
    (fun st => st.1)

/-- The `for i in range(limit)` loop of `solutions` (solver.py 95-106):
like `solve`'s, but the cloned snapshot is yielded whenever the global best
is replaced.  Returns the list of yielded snapshots, `none` where Python
raises. -/
def solutionsLoop (ps : Params) (L : Nat → ℚ) :
    List (List SimAnt) → Option SimAnt → PheroField → Option (List SimAnt)
  | [], _, _ => some []
  | col :: cols, gb, w =>
    let fs := findSolutions ps.rho L col w
    let w2 := updateScent ps fs.1 fs.2
    match getBestAnt fs.1 with
    | none => none
    | some lb =>
      let improved : Bool := match gb with
        | none => true
        | some g => lb.distance < g.distance
      let gb2 := if improved then cloneAnt lb else gb.iget
      let w3 := if ps.elite ≠ 0 then traceElite ps gb2 w2 else w2
      let rest := solutionsLoop ps L cols (some gb2) w3
      if improved then rest.map (fun ys => gb2 :: ys) else rest

/-- `solutions(limit)` (solver.py 77-106): reset the pheromone, run the
loop, collect the yielded snapshots in order. -/
def solutionsRun (ps : Params) (L : Nat → ℚ) (cols : List (List SimAnt)) :
    Option (List SimAnt) :=
  solutionsLoop ps L cols none (resetPheromone ps (fun _ => 0))

/-- `round_robin_ants` (solver.py 108-131): the start nodes of the created
ants, ant `i` starting on node `i % n` (the created `Ant` objects are
represented by their start nodes; `Ant.__init__` records the start). -/
def roundRobinAnts (nodes : List Nat) (antCount : Nat) : List Nat :=
  (List.range antCount).map (fun i => nodes.getD (i % nodes.length) 0)

/-- The `while self.ant_count > 0 and len(starts) > 0` loop of
`random_ants` (solver.py 149-156): `rng k` gives the value of the `k`-th
call of `random.randrange`, reduced modulo the current number of remaining
starts so that every valid draw sequence is representable; the drawn start
is popped and an ant created on it.  Note the loop condition tests the
constant `self.ant_count`, never the number of ants created so far. -/
def randomAntsGo (rng : Nat → Nat) (antCount : Nat) (k : Nat)
    (starts acc : List Nat) : List Nat :=
  if h : antCount > 0 ∧ starts ≠ [] then
    let r := rng k % starts.length
    randomAntsGo rng antCount (k + 1) (starts.eraseIdx r)
      (acc ++ [starts.getD r 0])
  else acc
termination_by starts.length
decreasing_by
  have hpos : 0 < starts.length := List.length_pos.mpr h.2
  have hr : rng k % starts.length < starts.length := Nat.mod_lt _ hpos
  have := List.length_eraseIdx_of_lt hr
  omega

/-- `random_ants` (solver.py 133-156): start nodes of the ants created by
random placement. -/
def randomAnts (rng : Nat → Nat) (antCount : Nat) (nodes : List Nat) :
    List Nat :=
  randomAntsGo rng antCount 0 nodes []

/-! ### The embedded `sorted`: permutation, order, stability -/

theorem insAnt_perm (a : SimAnt) (l : List SimAnt) :
    List.Perm (insAnt a l) (a :: l) := by
  induction l with
  | nil => rfl
  | cons b bs ih =>
    by_cases h : b.distance ≤ a.distance
    · simp only [insAnt, if_pos h]
      exact (ih.cons b).trans (List.Perm.swap a b bs)
    · simp only [insAnt, if_neg h]
      exact List.Perm.refl _

theorem sortAnts_go_perm (l acc : List SimAnt) :
    List.Perm (List.foldl (fun acc a => insAnt a acc) acc l) (acc ++ l) := by
  induction l generalizing acc with
  | nil => simp
  | cons a as ih =>
    refine (ih (insAnt a acc)).trans ?_
    refine ((insAnt_perm a acc).append_right as).trans ?_
    exact List.perm_middle.symm

theorem sortAnts_perm (l : List SimAnt) : List.Perm (sortAnts l) l := by
  simpa [sortAnts] using sortAnts_go_perm l []

theorem sortAnts_length (l : List SimAnt) :
    (sortAnts l).length = l.length :=
  (sortAnts_perm l).length_eq

theorem mem_sortAnts {a : SimAnt} {l : List SimAnt} :
    a ∈ sortAnts l ↔ a ∈ l :=
  (sortAnts_perm l).mem_iff

theorem insAnt_pairwise {a : SimAnt} {l : List SimAnt}
    (h : l.Pairwise (fun x y => x.distance ≤ y.distance)) :
    (insAnt a l).Pairwise (fun x y => x.distance ≤ y.distance) := by
  induction l with
  | nil => simp [insAnt]
  | cons b bs ih =>
    rw [List.pairwise_cons] at h
    by_cases hba : b.distance ≤ a.distance
    · simp only [insAnt, if_pos hba]
      rw [List.pairwise_cons]
      refine ⟨?_, ih h.2⟩
      intro x hx
      rcases List.mem_cons.mp ((insAnt_perm a bs).mem_iff.mp hx) with hxa | hxbs
      · exact hxa ▸ hba
      · exact h.1 x hxbs
    · simp only [insAnt, if_neg hba]
      have hab : a.distance < b.distance := lt_of_not_le hba
      rw [List.pairwise_cons]
      refine ⟨?_, List.pairwise_cons.mpr h⟩
      intro x hx
      rcases List.mem_cons.mp hx with hxb | hxbs
      · exact hxb ▸ le_of_lt hab
      · exact le_of_lt (lt_of_lt_of_le hab (h.1 x hxbs))

theorem sortAnts_go_pairwise (l acc : List SimAnt)
    (h : acc.Pairwise (fun x y => x.distance ≤ y.distance)) :
    (List.foldl (fun acc a => insAnt a acc) acc l).Pairwise
      (fun x y => x.distance ≤ y.distance) := by
  induction l generalizing acc with
  | nil => exact h
  | cons a as ih => exact ih _ (insAnt_pairwise h)

theorem sortAnts_pairwise (l : List SimAnt) :
    (sortAnts l).Pairwise (fun x y => x.distance ≤ y.distance) :=
  sortAnts_go_pairwise l [] List.Pairwise.nil

theorem insAnt_filter_eq {a : SimAnt} {l : List SimAnt} {d : ℚ}
    (h : l.Pairwise (fun x y => x.distance ≤ y.distance))
    (ha : a.distance = d) :
    (insAnt a l).filter (fun x => decide (x.distance = d)) =
      l.filter (fun x => decide (x.distance = d)) ++ [a] := by
  induction l with
  | nil => simp [insAnt, ha]
  | cons b bs ih =>
    rw [List.pairwise_cons] at h
    by_cases hba : b.distance ≤ a.distance
    · simp only [insAnt, if_pos hba, List.filter_cons]
      by_cases hb : b.distance = d
      · rw [ih h.2]
        simp [hb]
      · rw [ih h.2]
        simp [hb]
    · have hab : a.distance < b.distance := lt_of_not_le hba
      have hnil : (b :: bs).filter (fun x => decide (x.distance = d)) = [] := by
        rw [List.filter_eq_nil_iff]
        intro x hx
        have hdx : d < x.distance := by
          rcases List.mem_cons.mp hx with hxb | hxbs
          · exact hxb ▸ (ha ▸ hab)
          · exact ha ▸ lt_of_lt_of_le hab (h.1 x hxbs)
        simp [ne_of_gt hdx]
      simp only [insAnt, if_neg hba]
      rw [List.filter_cons, hnil]
      simp [ha]

theorem insAnt_filter_ne {a : SimAnt} {l : List SimAnt} {d : ℚ}
    (ha : a.distance ≠ d) :
    (insAnt a l).filter (fun x => decide (x.distance = d)) =
      l.filter (fun x => decide (x.distance = d)) := by
  induction l with
  | nil => simp [insAnt, ha]
  | cons b bs ih =>
    by_cases hba : b.distance ≤ a.distance
    · simp only [insAnt, if_pos hba, List.filter_cons, ih]
    · simp only [insAnt, if_neg hba, List.filter_cons]
      simp [ha]

theorem sortAnts_go_filter (l : List SimAnt) (d : ℚ) :
    ∀ acc : List SimAnt,
      acc.Pairwise (fun x y => x.distance ≤ y.distance) →
      (List.foldl (fun acc a => insAnt a acc) acc l).filter
          (fun x => decide (x.distance = d)) =
        acc.filter (fun x => decide (x.distance = d)) ++
          l.filter (fun x => decide (x.distance = d)) := by
  induction l with
  | nil =>
    intro acc _
    simp
  | cons a as ih =>
    intro acc hacc
    have hrec := ih (insAnt a acc) (insAnt_pairwise hacc)
    by_cases ha : a.distance = d
    · rw [List.foldl_cons, hrec, insAnt_filter_eq hacc ha, List.filter_cons]
      simp [ha]
    · rw [List.foldl_cons, hrec, insAnt_filter_ne ha, List.filter_cons]
      simp [ha]

/-- Stability of the embedded `sorted`: every distance class appears in the
sorted list exactly in its input order. -/
theorem sortAnts_filter (l : List SimAnt) (d : ℚ) :
    (sortAnts l).filter (fun x => decide (x.distance = d)) =
      l.filter (fun x => decide (x.distance = d)) := by
  simpa [sortAnts] using sortAnts_go_filter l d [] List.Pairwise.nil

theorem sortAnts_ne_nil {ants : List SimAnt} (h : ants ≠ []) :
    sortAnts ants ≠ [] := by
  intro hc
  exact h (List.length_eq_zero.mp (by rw [← sortAnts_length, hc]; rfl))

theorem getBestAnt_eq {ants : List SimAnt} (h : ants ≠ []) :
    getBestAnt ants = some (bestOf ants) := by
  have hne := sortAnts_ne_nil h
  cases hs : sortAnts ants with
  | nil => exact absurd hs hne
  | cons x xs => simp [getBestAnt, bestOf, hs]

theorem bestOf_mem {ants : List SimAnt} (h : ants ≠ []) :
    bestOf ants ∈ ants := by
  have hne := sortAnts_ne_nil h
  cases hs : sortAnts ants with
  | nil => exact absurd hs hne
  | cons x xs =>
    have hx : x ∈ sortAnts ants := by
      rw [hs]
      exact List.mem_cons_self x xs
    rw [mem_sortAnts] at hx
    simpa [bestOf, hs] using hx

theorem bestOf_min {ants : List SimAnt} (h : ants ≠ []) :
    ∀ b ∈ ants, (bestOf ants).distance ≤ b.distance := by
  intro b hb
  have hbs : b ∈ sortAnts ants := mem_sortAnts.mpr hb
  have hp := sortAnts_pairwise ants
  cases hs : sortAnts ants with
  | nil =>
    rw [hs] at hbs
    cases hbs
  | cons x xs =>
    rw [hs] at hbs hp
    rw [List.pairwise_cons] at hp
    rcases List.mem_cons.mp hbs with hbx | hbxs
    · simp [bestOf, hs, hbx]
    · simpa [bestOf, hs] using hp.1 b hbxs

/-! ### Pointwise behaviour of the pheromone updates -/

theorem updEdge_same (w : PheroField) (m : Nat) (v : ℚ) :
    updEdge w m v m = v := by
  simp [updEdge]

theorem updEdge_other {e m : Nat} (w : PheroField) (v : ℚ) (h : e ≠ m) :
    updEdge w m v e = w e := by
  simp [updEdge, h]

theorem depositOn_frame (ps : Params) (p : ℚ) :
    ∀ (ms : List Nat) (w : PheroField) (e : Nat), e ∉ ms →
      depositOn ps p ms w e = w e := by
  intro ms
  induction ms with
  | nil => intro w e _; rfl
  | cons m ms ih =>
    intro w e he
    have hem : e ≠ m := fun hc => he (hc ▸ List.mem_cons_self m ms)
    have hems : e ∉ ms := fun hc => he (List.mem_cons_of_mem m hc)
    simp only [depositOn, List.foldl_cons]
    rw [show (List.foldl (fun w m => updEdge w m (max ps.t0 ((1 - ps.rho) * w m + p))) (updEdge w m (max ps.t0 ((1 - ps.rho) * w m + p))) ms) = depositOn ps p ms (updEdge w m (max ps.t0 ((1 - ps.rho) * w m + p))) from rfl]
    rw [ih _ e hems]
    exact updEdge_other _ _ hem

theorem depositOn_once (ps : Params) (p : ℚ) :
    ∀ (ms : List Nat) (w : PheroField) (e : Nat), ms.count e = 1 →
      depositOn ps p ms w e = max ps.t0 ((1 - ps.rho) * w e + p) := by
  intro ms
  induction ms with
  | nil => intro w e h; simp at h
  | cons m ms ih =>
    intro w e hc
    rw [List.count_cons] at hc
    by_cases hem : m = e
    · have hms : ms.count e = 0 := by
        simp [hem] at hc
        omega
      have hnot : e ∉ ms := List.count_eq_zero.mp hms
      simp only [depositOn, List.foldl_cons]
      rw [show (List.foldl (fun w m => updEdge w m (max ps.t0 ((1 - ps.rho) * w m + p))) (updEdge w m (max ps.t0 ((1 - ps.rho) * w m + p))) ms) = depositOn ps p ms (updEdge w m (max ps.t0 ((1 - ps.rho) * w m + p))) from rfl]
      rw [depositOn_frame ps p ms _ e hnot, hem, updEdge_same]
    · have hms : ms.count e = 1 := by
        simp [hem] at hc
        omega
      simp only [depositOn, List.foldl_cons]
      rw [show (List.foldl (fun w m => updEdge w m (max ps.t0 ((1 - ps.rho) * w m + p))) (updEdge w m (max ps.t0 ((1 - ps.rho) * w m + p))) ms) = depositOn ps p ms (updEdge w m (max ps.t0 ((1 - ps.rho) * w m + p))) from rfl]
      rw [ih _ e hms, updEdge_other _ _ (fun hc2 => hem hc2.symm)]

theorem depositOn_floor (ps : Params) (p : ℚ) :
    ∀ (ms : List Nat) (w : PheroField), (∀ e, ps.t0 ≤ w e) →
      ∀ e, ps.t0 ≤ depositOn ps p ms w e := by
  intro ms
  induction ms with
  | nil => intro w hw e; exact hw e
  | cons m ms ih =>
    intro w hw e
    simp only [depositOn, List.foldl_cons]
    rw [show (List.foldl (fun w m => updEdge w m (max ps.t0 ((1 - ps.rho) * w m + p))) (updEdge w m (max ps.t0 ((1 - ps.rho) * w m + p))) ms) = depositOn ps p ms (updEdge w m (max ps.t0 ((1 - ps.rho) * w m + p))) from rfl]
    apply ih
    intro e2
    by_cases h2 : e2 = m
    · rw [h2, updEdge_same]
      exact le_max_left _ _
    · rw [updEdge_other _ _ h2]
      exact hw e2

theorem addOn_count (c : ℚ) :
    ∀ (ms : List Nat) (w : PheroField) (e : Nat),
      addOn c ms w e = w e + ms.count e * c := by
  intro ms
  induction ms with
  | nil => intro w e; simp [addOn]
  | cons m ms ih =>
    intro w e
    simp only [addOn, List.foldl_cons]
    rw [show (List.foldl (fun w m => updEdge w m (w m + c)) (updEdge w m (w m + c)) ms) = addOn c ms (updEdge w m (w m + c)) from rfl]
    rw [ih _ e, List.count_cons]
    by_cases hem : m = e
    · rw [hem, updEdge_same]
      simp [hem]
      ring
    · rw [updEdge_other _ _ (fun hc => hem hc.symm)]
      simp [hem]

/-! ### The better-half selection and the global update -/

theorem selHalf_length (ants : List SimAnt) :
    (selHalf ants).length = ants.length / 2 := by
  rw [selHalf, List.length_take, sortAnts_length]
  exact Nat.min_eq_left (Nat.div_le_self _ _)

theorem selHalf_le_drop (ants : List SimAnt) :
    ∀ a ∈ selHalf ants, ∀ b ∈ (sortAnts ants).drop (ants.length / 2),
      a.distance ≤ b.distance := by
  have hp := sortAnts_pairwise ants
  rw [← List.take_append_drop (ants.length / 2) (sortAnts ants),
    List.pairwise_append] at hp
  exact hp.2.2

theorem scentFold_frame (ps : Params) :
    ∀ (sel : List SimAnt) (w : PheroField) (e : Nat),
      (∀ a ∈ sel, e ∉ a.moves) →
      sel.foldl (fun w a => depositAnt ps a w) w e = w e := by
  intro sel
  induction sel with
  | nil => intro w e _; rfl
  | cons a sel ih =>
    intro w e he
    simp only [List.foldl_cons]
    rw [ih _ e (fun b hb => he b (List.mem_cons_of_mem a hb))]
    exact depositOn_frame ps _ a.moves w e (he a (List.mem_cons_self a sel))

theorem scentFold_once (ps : Params) :
    ∀ (sel : List SimAnt) (w : PheroField) (e : Nat) (a : SimAnt),
      a ∈ sel → (sel.flatMap SimAnt.moves).count e = 1 → e ∈ a.moves →
      sel.foldl (fun w a => depositAnt ps a w) w e =
        max ps.t0 ((1 - ps.rho) * w e + ps.q / a.distance) := by
  intro sel
  induction sel with
  | nil => intro w e a ha _ _; cases ha
  | cons a0 sel ih =>
    intro w e a ha hcount hea
    rw [List.flatMap_cons, List.count_append] at hcount
    by_cases h0 : e ∈ a0.moves
    · have h1 : 0 < a0.moves.count e := List.count_pos_iff.mpr h0
      have hsel0 : (sel.flatMap SimAnt.moves).count e = 0 := by omega
      have ha0moves : a0.moves.count e = 1 := by omega
      have hnotsel : ∀ b ∈ sel, e ∉ b.moves := by
        intro b hb hc
        have : e ∈ sel.flatMap SimAnt.moves := List.mem_flatMap.mpr ⟨b, hb, hc⟩
        have := List.count_pos_iff.mpr this
        omega
      have haa0 : a = a0 := by
        rcases List.mem_cons.mp ha with h | h
        · exact h
        · exact absurd hea (hnotsel a h)
      simp only [List.foldl_cons]
      rw [scentFold_frame ps sel _ e hnotsel]
      rw [show depositAnt ps a0 w = depositOn ps (ps.q / a0.distance) a0.moves w from rfl]
      rw [depositOn_once ps _ a0.moves w e ha0moves, haa0]
    · have h0c : a0.moves.count e = 0 := List.count_eq_zero.mpr h0
      have hsel1 : (sel.flatMap SimAnt.moves).count e = 1 := by omega
      have haa0 : a ∈ sel := by
        rcases List.mem_cons.mp ha with h | h
        · exact absurd (h ▸ hea) h0
        · exact h
      simp only [List.foldl_cons]
      rw [ih _ e a haa0 hsel1 hea]
      rw [show depositAnt ps a0 w = depositOn ps (ps.q / a0.distance) a0.moves w from rfl]
      rw [depositOn_frame ps _ a0.moves w e h0]

theorem finishAnt_of_done (L : Nat → ℚ) {a : SimAnt} (h : canMove a = false) :
    finishAnt L a = a := by
  cases a with
  | mk s mv d =>
    cases s with
    | nil => simp [finishAnt]
    | cons e r => simp [canMove] at h

theorem commitMove_finish (rho : ℚ) (L : Nat → ℚ) (a : SimAnt)
    (w : PheroField) :
    finishAnt L (commitMove rho L a w).1 = finishAnt L a := by
  cases hs : a.script with
  | nil => simp [commitMove, hs]
  | cons e rest =>
    simp [commitMove, hs, finishAnt, List.append_assoc, add_assoc]

theorem passAnts_finish (rho : ℚ) (L : Nat → ℚ) :
    ∀ (ants : List SimAnt) (w : PheroField),
      (passAnts rho L ants w).1.map (finishAnt L) = ants.map (finishAnt L) := by
  intro ants
  induction ants with
  | nil => intro w; rfl
  | cons a rest ih =>
    intro w
    by_cases h : canMove a
    · simp only [passAnts, h, if_true, List.map_cons]
      rw [ih, commitMove_finish]
    · simp only [passAnts, h, if_false, Bool.false_eq_true, List.map_cons]
      rw [ih]

theorem passAnts_all_done (rho : ℚ) (L : Nat → ℚ) :
    ∀ (ants : List SimAnt) (w : PheroField),
      (passAnts rho L ants w).2.2 = ants.length →
      ∀ a ∈ (passAnts rho L ants w).1, canMove a = false := by
  intro ants
  induction ants with
  | nil => intro w _ a ha; simp [passAnts] at ha
  | cons a0 rest ih =>
    intro w hdone a ha
    by_cases h : canMove a0
    · exfalso
      simp only [passAnts, h, if_true] at hdone
      have := passAnts_done_le rho L rest (commitMove rho L a0 w).2
      simp at hdone
      omega
    · simp only [passAnts, h, if_false, Bool.false_eq_true] at hdone ha
      have hr : (passAnts rho L rest w).2.2 = rest.length := by
        simp at hdone
        omega
      rcases List.mem_cons.mp ha with h1 | h1
      · rw [h1]
        simpa using h
      · exact ih w hr a h1

theorem fsLoop_finish (rho : ℚ) (L : Nat → ℚ) :
    ∀ (ants : List SimAnt) (w : PheroField) (done : Nat),
      (ants.length ≤ done → ∀ a ∈ ants, canMove a = false) →
      (fsLoop rho L ants w done).1 = ants.map (finishAnt L) := by
  intro ants w done
  induction ants, w, done using fsLoop.induct rho L with
  | case1 ants w done h r ih =>
    intro _
    have h1 : r.1.length = ants.length := passAnts_length rho L ants w
    have h2 : r.2.2 ≤ ants.length := passAnts_done_le rho L ants w
    have hpre : r.1.length ≤ r.2.2 → ∀ a ∈ r.1, canMove a = false := by
      intro hle a ha
      have heq : r.2.2 = ants.length := by omega
      exact passAnts_all_done rho L ants w heq a ha
    have hrec := ih hpre
    rw [fsLoop, dif_pos h]
    exact hrec.trans (passAnts_finish rho L ants w)
  | case2 ants w done h =>
    intro hdone
    rw [fsLoop, dif_neg h]
    have hall : ∀ a ∈ ants, canMove a = false := hdone (by omega)
    have hmap : ants.map (finishAnt L) = ants.map id := by
      apply List.map_congr_left
      intro a ha
      exact finishAnt_of_done L (hall a ha)
    rw [hmap, List.map_id]

/-- `find_solutions` drives every ant to its finished state. -/
theorem findSolutions_fst (rho : ℚ) (L : Nat → ℚ) (ants : List SimAnt)
    (w : PheroField) :
    (findSolutions rho L ants w).1 = ants.map (finishAnt L) := by
  apply fsLoop_finish
  intro hle a ha
  have : ants = [] := List.length_eq_zero.mp (by omega)
  rw [this] at ha
  cases ha

/-- C9: the driving loop of `find_solutions` terminates (it is a total
function of the embedding, whose recursion measure is the colony's total
number of remaining scripted moves), and it exits exactly when every ant
reports it cannot move further: every returned ant is the finished state of
the corresponding input ant (its whole script consumed) and reports
`can_move() == False`. -/
theorem findSolutions_terminates (rho : ℚ) (L : Nat → ℚ)
    (ants : List SimAnt) (w : PheroField) :
    (findSolutions rho L ants w).1 = ants.map (finishAnt L) ∧
    ∀ a ∈ (findSolutions rho L ants w).1, canMove a = false := by
  refine ⟨findSolutions_fst rho L ants w, ?_⟩
  rw [findSolutions_fst rho L ants w]
  intro a ha
  rcases List.mem_map.mp ha with ⟨b, _, hb⟩
  rw [← hb]
  simp [canMove, finishAnt]

/-- C8: each time an ant commits to a move inside `find_solutions`, the
pheromone of exactly the traversed edge is multiplied by `rho` (not by
`1 - rho`); no other edge is modified by that move, the ant could indeed
move, and the traversed edge is appended to its move list. -/
theorem commitMove_local_decay (rho : ℚ) (L : Nat → ℚ) (a : SimAnt)
    (w : PheroField) (e : Nat) (rest : List Nat) (h : a.script = e :: rest) :
    (commitMove rho L a w).2 e = w e * rho ∧
    (∀ m, m ≠ e → (commitMove rho L a w).2 m = w m) ∧
    canMove a = true ∧
    (commitMove rho L a w).1.moves = a.moves ++ [e] := by
  refine ⟨?_, ?_, ?_, ?_⟩
  · simp [commitMove, h, updEdge_same]
  · intro m hm
    simp only [commitMove, h]
    exact updEdge_other _ _ hm
  · simp [canMove, h]
  · simp [commitMove, h]

theorem commitMove_local_decay_witness :
    ((commitMove (4/5) (fun _ => 1) ⟨[7], [3], 2⟩ (fun _ => 5)).2 7
        = (5 : ℚ) * (4/5)) ∧
    (∀ m, m ≠ 7 →
      (commitMove (4/5) (fun _ => 1) ⟨[7], [3], 2⟩ (fun _ => 5)).2 m
        = (5 : ℚ)) ∧
    canMove (⟨[7], [3], 2⟩ : SimAnt) = true ∧
    (commitMove (4/5) (fun _ => 1) ⟨[7], [3], 2⟩ (fun _ => 5)).1.moves
      = [3] ++ [7] :=
  commitMove_local_decay (4/5) (fun _ => 1) ⟨[7], [3], 2⟩ (fun _ => 5) 7 [] rfl

/-! ### The pheromone floor -/

theorem scentFold_floor (ps : Params) :
    ∀ (sel : List SimAnt) (w : PheroField), (∀ e, ps.t0 ≤ w e) →
      ∀ e, ps.t0 ≤ sel.foldl (fun w a => depositAnt ps a w) w e := by
  intro sel
  induction sel with
  | nil => intro w hw e; exact hw e
  | cons a sel ih =>
    intro w hw e
    simp only [List.foldl_cons]
    exact ih _ (depositOn_floor ps _ a.moves w hw) e

/-- C1 (counterexample): with the default parameters `rho = 4/5` and
`t0 = 1/100`, immediately after `reset_pheromone` a single committed ant
move leaves the traversed edge at `1/125 < t0`: the floor invariant fails
at the point after the local decay of `find_solutions`. -/
theorem pheromone_floor_counterexample :
    ¬ ((1/100 : ℚ) ≤
      (commitMove (4/5) (fun _ => 1) ⟨[0], [], 0⟩
        (resetPheromone ⟨4/5, 1, 1/100, 1/2⟩ (fun _ => 0))).2 0) := by
  norm_num [commitMove, resetPheromone, updEdge]

/-- C1 (amended): the floor `t0` holds after `reset_pheromone`, is
preserved on every edge by `update_scent` (the deposit is clamped by
`max(t0, ...)`), and is preserved by `trace_elite` whenever its deposit
`elite * q / distance` is nonnegative; it is *not* preserved by the local
per-move decay of `find_solutions` (see the counterexample). -/
theorem pheromone_floor_outside_local_decay (ps : Params) (w : PheroField)
    (ants : List SimAnt) (a : SimAnt) (e : Nat)
    (hw : ∀ e2, ps.t0 ≤ w e2)
    (helite : 0 ≤ ps.elite * ps.q / a.distance) :
    ps.t0 ≤ resetPheromone ps w e ∧
    ps.t0 ≤ updateScent ps ants w e ∧
    ps.t0 ≤ traceElite ps a w e := by
  refine ⟨le_refl _, ?_, ?_⟩
  · exact scentFold_floor ps (selHalf ants) w hw e
  · by_cases he : ps.elite ≠ 0
    · rw [traceElite, if_pos he]
      rw [addOn_count _ a.moves w e]
      have hc : (0 : ℚ) ≤ (a.moves.count e : ℚ) * (ps.elite * ps.q / a.distance) :=
        mul_nonneg (Nat.cast_nonneg _) helite
      calc ps.t0 ≤ w e := hw e
        _ ≤ w e + (a.moves.count e : ℚ) * (ps.elite * ps.q / a.distance) :=
            le_add_of_nonneg_right hc
    · rw [traceElite, if_neg he]
      exact hw e

theorem pheromone_floor_outside_local_decay_witness :
    ((1/100 : ℚ) ≤ resetPheromone ⟨4/5, 1, 1/100, 1/2⟩ (fun _ => 1/100) 0) ∧
    ((1/100 : ℚ) ≤
      updateScent ⟨4/5, 1, 1/100, 1/2⟩ [⟨[], [0], 2⟩] (fun _ => 1/100) 0) ∧
    ((1/100 : ℚ) ≤
      traceElite ⟨4/5, 1, 1/100, 1/2⟩ ⟨[], [0], 2⟩ (fun _ => 1/100) 0) :=
  pheromone_floor_outside_local_decay ⟨4/5, 1, 1/100, 1/2⟩ (fun _ => 1/100)
    [⟨[], [0], 2⟩] ⟨[], [0], 2⟩ 0 (fun _ => le_refl _) (by norm_num)

/-- C10: a colony of fewer than two ants has an empty better half
(`len(ants) // 2 == 0`), so `update_scent` modifies no edge at all. -/
theorem updateScent_small (ps : Params) (ants : List SimAnt)
    (w : PheroField) (h : ants.length < 2) :
    updateScent ps ants w = w := by
  have h0 : ants.length / 2 = 0 := Nat.div_eq_of_lt h
  simp [updateScent, selHalf, h0]

theorem updateScent_small_witness :
    updateScent ⟨4/5, 1, 1/100, 1/2⟩ [⟨[], [0, 1], 2⟩] (fun _ => 3)
      = (fun _ => (3 : ℚ)) :=
  updateScent_small ⟨4/5, 1, 1/100, 1/2⟩ [⟨[], [0, 1], 2⟩] (fun _ => 3)
    (by simp)

/-- C4: `update_scent` selects exactly the `len(ants) // 2` ants of
smallest distance, ties broken by stable input order (the selection is the
prefix of the stable sort, whose distance classes keep their input order);
every selected ant is one of the colony's ants and its distance is at most
any unselected ant's; an edge on no selected ant's move list is left
unchanged; and an edge appearing exactly once among the selected ants'
move lists, on ant `a`, is set to
`max(t0, (1 - rho) * current + q / a.distance)`. -/
theorem updateScent_spec (ps : Params) (ants : List SimAnt)
    (w : PheroField) :
    (selHalf ants).length = ants.length / 2 ∧
    (∀ a ∈ selHalf ants, a ∈ ants) ∧
    (∀ a ∈ selHalf ants, ∀ b ∈ (sortAnts ants).drop (ants.length / 2),
      a.distance ≤ b.distance) ∧
    (∀ d : ℚ, (sortAnts ants).filter (fun x => decide (x.distance = d)) =
      ants.filter (fun x => decide (x.distance = d))) ∧
    (∀ e, (∀ a ∈ selHalf ants, e ∉ a.moves) →
      updateScent ps ants w e = w e) ∧
    (∀ e a, a ∈ selHalf ants →
      ((selHalf ants).flatMap SimAnt.moves).count e = 1 → e ∈ a.moves →
      updateScent ps ants w e =
        max ps.t0 ((1 - ps.rho) * w e + ps.q / a.distance)) := by
  refine ⟨selHalf_length ants, ?_, selHalf_le_drop ants,
    fun d => sortAnts_filter ants d, ?_, ?_⟩
  · intro a ha
    exact mem_sortAnts.mp (List.take_subset _ _ ha)
  · intro e he
    exact scentFold_frame ps (selHalf ants) w e he
  · intro e a ha hc hea
    exact scentFold_once ps (selHalf ants) w e a ha hc hea

/-- The best ant an iteration built from colony `col` contributes to
best-tracking: the minimum-distance finished ant. -/
def locBest (L : Nat → ℚ) (col : List SimAnt) : SimAnt :=
  bestOf (col.map (finishAnt L))

/-- The pheromone field an iteration reaches after `find_solutions` and
`update_scent`, starting from `w`. -/
def scentAfter (ps : Params) (L : Nat → ℚ) (col : List SimAnt)
    (w : PheroField) : PheroField :=
  updateScent ps (findSolutions ps.rho L col w).1
    (findSolutions ps.rho L col w).2

theorem findSolutions_fst_ne {L : Nat → ℚ} {rho : ℚ} {col : List SimAnt}
    {w : PheroField} (h : col ≠ []) :
    (findSolutions rho L col w).1 ≠ [] := by
  rw [findSolutions_fst]
  intro hc
  rw [List.map_eq_nil_iff] at hc
  exact h hc

theorem solveStep_shape (ps : Params) (L : Nat → ℚ) (col : List SimAnt)
    (g : SimAnt) (w : PheroField) (h : col ≠ []) :
    solveStep ps L col (some g, w) =
      some (some (if (locBest L col).distance < g.distance
          then cloneAnt (locBest L col) else g),
        if ps.elite ≠ 0
          then traceElite ps
            (if (locBest L col).distance < g.distance
              then cloneAnt (locBest L col) else g)
            (scentAfter ps L col w)
          else scentAfter ps L col w) := by
  have hne : (findSolutions ps.rho L col w).1 ≠ [] := findSolutions_fst_ne h
  have hb : bestOf (findSolutions ps.rho L col w).1 = locBest L col := by
    rw [findSolutions_fst]
    rfl
  simp only [solveStep]
  rw [getBestAnt_eq hne, hb]
  rfl

theorem solveStep_first (ps : Params) (L : Nat → ℚ) (col : List SimAnt)
    (w : PheroField) (h : col ≠ []) :
    solveStep ps L col (none, w) =
      some (some (cloneAnt (locBest L col)),
        if ps.elite ≠ 0
          then traceElite ps (cloneAnt (locBest L col)) (scentAfter ps L col w)
          else scentAfter ps L col w) := by
  have hne : (findSolutions ps.rho L col w).1 ≠ [] := findSolutions_fst_ne h
  have hb : bestOf (findSolutions ps.rho L col w).1 = locBest L col := by
    rw [findSolutions_fst]
    rfl
  simp only [solveStep]
  rw [getBestAnt_eq hne, hb]
  rfl

theorem cloneAnt_eq (a : SimAnt) : cloneAnt a = a := rfl


/-- C6: `trace_elite` with falsy `elite` changes nothing; with truthy
`elite` it adds `elite * q / ant.distance` to every edge of the ant's tour
(once per occurrence on the move list), with no floor or ceiling clamp,
strictly increasing every tour edge's pheromone when `elite`, `q` and the
distance are positive; and in the solve loop it is applied to the *global*
best: when the iteration does not improve on the global best `g`, the
iteration's field is `trace_elite` applied to `g`, not to the
iteration-local best. -/
theorem traceElite_spec (ps : Params) (L : Nat → ℚ) (a g : SimAnt)
    (col : List SimAnt) (w wf : PheroField) :
    (ps.elite = 0 → traceElite ps a wf = wf) ∧
    (ps.elite ≠ 0 → ∀ e, traceElite ps a wf e =
      wf e + a.moves.count e * (ps.elite * ps.q / a.distance)) ∧
    (0 < ps.elite → 0 < ps.q → 0 < a.distance → ∀ e ∈ a.moves,
      wf e < traceElite ps a wf e) ∧
    (col ≠ [] → ps.elite ≠ 0 →
      ¬ (locBest L col).distance < g.distance →
      solveStep ps L col (some g, w) =
        some (some g, traceElite ps g (scentAfter ps L col w))) := by
  refine ⟨?_, ?_, ?_, ?_⟩
  · intro h0
    rw [traceElite, if_neg (by simp [h0])]
  · intro hne e
    rw [traceElite, if_pos hne]
    exact addOn_count _ a.moves wf e
  · intro he hq hd e hea
    have hne : ps.elite ≠ 0 := ne_of_gt he
    rw [traceElite, if_pos hne, addOn_count _ a.moves wf e]
    have hc : 0 < (a.moves.count e : ℚ) := by
      have := List.count_pos_iff.mpr hea
      exact_mod_cast this
    have hpos : 0 < ps.elite * ps.q / a.distance :=
      div_pos (mul_pos he hq) hd
    exact lt_add_of_pos_right _ (mul_pos hc hpos)
  · intro hcol hne himp
    rw [solveStep_shape ps L col g w hcol, if_neg himp, if_pos hne]


theorem solveLoop_inv (ps : Params) (L : Nat → ℚ) :
    ∀ (cols : List (List SimAnt)) (g : SimAnt) (w : PheroField),
      (∀ col ∈ cols, col ≠ []) →
      ∃ g2 w2, solveLoop ps L cols (some g, w) = some (some g2, w2) ∧
        g2.distance ≤ g.distance ∧
        (∀ col ∈ cols, g2.distance ≤ (locBest L col).distance) ∧
        (g2 = g ∨
          ∃ pre col post, cols = pre ++ col :: post ∧
            g2 = cloneAnt (locBest L col) ∧ g2.distance < g.distance ∧
            ∀ c ∈ pre, g2.distance < (locBest L c).distance) := by
  intro cols
  induction cols with
  | nil =>
    intro g w _
    exact ⟨g, w, rfl, le_refl _, by simp, Or.inl rfl⟩
  | cons col cols ih =>
    intro g w hne
    have hcol : col ≠ [] := hne col (List.mem_cons_self _ _)
    have hrest : ∀ c ∈ cols, c ≠ [] := fun c hc => hne c (List.mem_cons_of_mem _ hc)
    by_cases himp : (locBest L col).distance < g.distance
    · obtain ⟨g2, w2, heq, hle, hall, hcase⟩ :=
        ih (cloneAnt (locBest L col))
          (if ps.elite ≠ 0
            then traceElite ps (cloneAnt (locBest L col)) (scentAfter ps L col w)
            else scentAfter ps L col w) hrest
      refine ⟨g2, w2, ?_, ?_, ?_, ?_⟩
      · simp only [solveLoop]
        rw [solveStep_shape ps L col g w hcol, if_pos himp]
        exact heq
      · rw [cloneAnt_eq] at hle
        exact le_of_lt (lt_of_le_of_lt hle himp)
      · intro c hc
        rcases List.mem_cons.mp hc with h1 | h1
        · rw [h1] at *
          rw [cloneAnt_eq] at hle
          exact hle
        · exact hall c h1
      · rcases hcase with h1 | ⟨pre, c2, post, hsplit, hg2, hlt, hpre⟩
        · refine Or.inr ⟨[], col, cols, rfl, h1, ?_, by simp⟩
          rw [h1, cloneAnt_eq]
          exact himp
        · refine Or.inr ⟨col :: pre, c2, post, by rw [hsplit]; rfl, hg2, ?_, ?_⟩
          · rw [cloneAnt_eq] at hlt
            exact lt_trans hlt himp
          · intro c hc
            rcases List.mem_cons.mp hc with h1 | h1
            · rw [h1]
              rw [cloneAnt_eq] at hlt
              exact hlt
            · exact hpre c h1
    · obtain ⟨g2, w2, heq, hle, hall, hcase⟩ :=
        ih g
          (if ps.elite ≠ 0
            then traceElite ps g (scentAfter ps L col w)
            else scentAfter ps L col w) hrest
      have hge : g.distance ≤ (locBest L col).distance := le_of_not_lt himp
      refine ⟨g2, w2, ?_, hle, ?_, ?_⟩
      · simp only [solveLoop]
        rw [solveStep_shape ps L col g w hcol, if_neg himp]
        exact heq
      · intro c hc
        rcases List.mem_cons.mp hc with h1 | h1
        · rw [h1]
          exact le_trans hle hge
        · exact hall c h1
      · rcases hcase with h1 | ⟨pre, c2, post, hsplit, hg2, hlt, hpre⟩
        · exact Or.inl h1
        · refine Or.inr ⟨col :: pre, c2, post, by rw [hsplit]; rfl, hg2, hlt, ?_⟩
          intro c hc
          rcases List.mem_cons.mp hc with h1 | h1
          · rw [h1]
            exact lt_of_lt_of_le hlt hge
          · exact hpre c h1

/-- C7: with every iteration's colony nonempty and `limit >= 1`
iterations, `solve` processes all `limit` colonies and returns a cloned
snapshot of the minimum-distance iteration best, taken at the first
iteration attaining that minimum: every earlier iteration's best is
strictly worse (the global best is replaced only on strict improvement),
and no iteration's best is better. -/
theorem solve_spec (ps : Params) (L : Nat → ℚ) (cols : List (List SimAnt))
    (limit : Nat) (hlen : cols.length = limit) (hlim : 1 ≤ limit)
    (hne : ∀ col ∈ cols, col ≠ []) :
    ∃ g, solveRun ps L cols = some (some g) ∧
      (∀ col ∈ cols, g.distance ≤ (locBest L col).distance) ∧
      ∃ pre col post, cols = pre ++ col :: post ∧
        g = cloneAnt (locBest L col) ∧
        ∀ c ∈ pre, g.distance < (locBest L c).distance := by
  cases cols with
  | nil =>
    rw [← hlen] at hlim
    simp at hlim
  | cons col0 rest =>
    have hcol0 : col0 ≠ [] := hne col0 (List.mem_cons_self _ _)
    have hrest : ∀ c ∈ rest, c ≠ [] := fun c hc => hne c (List.mem_cons_of_mem _ hc)
    obtain ⟨g2, w2, heq, hle, hall, hcase⟩ :=
      solveLoop_inv ps L rest (cloneAnt (locBest L col0))
        (if ps.elite ≠ 0
          then traceElite ps (cloneAnt (locBest L col0))
            (scentAfter ps L col0 (resetPheromone ps (fun _ => 0)))
          else scentAfter ps L col0 (resetPheromone ps (fun _ => 0))) hrest
    refine ⟨g2, ?_, ?_, ?_⟩
    · rw [solveRun]
      simp only [solveLoop]
      rw [solveStep_first ps L col0 (resetPheromone ps (fun _ => 0)) hcol0]
      exact (congrArg (Option.map fun st => st.1) heq).trans rfl
    · intro c hc
      rcases List.mem_cons.mp hc with h1 | h1
      · rw [h1]
        rw [cloneAnt_eq] at hle
        exact hle
      · exact hall c h1
    · rcases hcase with h1 | ⟨pre, c2, post, hsplit, hg2, hlt, hpre⟩
      · exact ⟨[], col0, rest, rfl, h1, by simp⟩
      · refine ⟨col0 :: pre, c2, post, by rw [hsplit]; rfl, hg2, ?_⟩
        intro c hc
        rcases List.mem_cons.mp hc with h1 | h1
        · rw [h1]
          rw [cloneAnt_eq] at hlt
          exact hlt
        · exact hpre c h1

theorem solve_spec_witness :
    ∃ g, solveRun ⟨4/5, 1, 1/100, 1/2⟩ (fun _ => 1) [[⟨[0], [], 0⟩]]
        = some (some g) ∧
      (∀ col ∈ [[(⟨[0], [], 0⟩ : SimAnt)]],
        g.distance ≤ (locBest (fun _ => 1) col).distance) ∧
      ∃ pre col post, [[(⟨[0], [], 0⟩ : SimAnt)]] = pre ++ col :: post ∧
        g = cloneAnt (locBest (fun _ => 1) col) ∧
        ∀ c ∈ pre, g.distance < (locBest (fun _ => 1) c).distance :=
  solve_spec ⟨4/5, 1, 1/100, 1/2⟩ (fun _ => 1) [[⟨[0], [], 0⟩]] 1 rfl
    (le_refl 1) (by simp)


theorem solutionsLoop_cons (ps : Params) (L : Nat → ℚ) (col : List SimAnt)
    (cols : List (List SimAnt)) (g : SimAnt) (w : PheroField)
    (h : col ≠ []) :
    solutionsLoop ps L (col :: cols) (some g) w =
      if (locBest L col).distance < g.distance
        then (solutionsLoop ps L cols (some (cloneAnt (locBest L col)))
            (if ps.elite ≠ 0
              then traceElite ps (cloneAnt (locBest L col)) (scentAfter ps L col w)
              else scentAfter ps L col w)).map
            (fun ys => cloneAnt (locBest L col) :: ys)
        else solutionsLoop ps L cols (some g)
            (if ps.elite ≠ 0
              then traceElite ps g (scentAfter ps L col w)
              else scentAfter ps L col w) := by
  have hne : (findSolutions ps.rho L col w).1 ≠ [] := findSolutions_fst_ne h
  have hb : bestOf (findSolutions ps.rho L col w).1 = locBest L col := by
    rw [findSolutions_fst]
    rfl
  simp only [solutionsLoop]
  rw [getBestAnt_eq hne, hb]
  by_cases himp : (locBest L col).distance < g.distance
  · simp [himp]
    try rfl
  · simp [himp]
    try rfl

theorem solutionsLoop_first (ps : Params) (L : Nat → ℚ) (col : List SimAnt)
    (cols : List (List SimAnt)) (w : PheroField) (h : col ≠ []) :
    solutionsLoop ps L (col :: cols) none w =
      (solutionsLoop ps L cols (some (cloneAnt (locBest L col)))
        (if ps.elite ≠ 0
          then traceElite ps (cloneAnt (locBest L col)) (scentAfter ps L col w)
          else scentAfter ps L col w)).map
        (fun ys => cloneAnt (locBest L col) :: ys) := by
  have hne : (findSolutions ps.rho L col w).1 ≠ [] := findSolutions_fst_ne h
  have hb : bestOf (findSolutions ps.rho L col w).1 = locBest L col := by
    rw [findSolutions_fst]
    rfl
  simp only [solutionsLoop]
  rw [getBestAnt_eq hne, hb]
  rfl


theorem solutionsLoop_inv (ps : Params) (L : Nat → ℚ) :
    ∀ (cols : List (List SimAnt)) (g : SimAnt) (w : PheroField),
      (∀ col ∈ cols, col ≠ []) →
      ∃ ys, solutionsLoop ps L cols (some g) w = some ys ∧
        ys.length ≤ cols.length ∧
        (∀ y ∈ ys, y.distance < g.distance) ∧
        List.Chain' (fun a b => b.distance < a.distance) ys ∧
        (∀ y ∈ ys, ∃ col ∈ cols, y = cloneAnt (locBest L col)) := by
  intro cols
  induction cols with
  | nil =>
    intro g w _
    exact ⟨[], rfl, by simp, by simp, List.chain'_nil, by simp⟩
  | cons col cols ih =>
    intro g w hne
    have hcol : col ≠ [] := hne col (List.mem_cons_self _ _)
    have hrest : ∀ c ∈ cols, c ≠ [] := fun c hc => hne c (List.mem_cons_of_mem _ hc)
    rw [solutionsLoop_cons ps L col cols g w hcol]
    by_cases himp : (locBest L col).distance < g.distance
    · rw [if_pos himp]
      obtain ⟨ys, heq, hlen, hlt, hchain, horig⟩ :=
        ih (cloneAnt (locBest L col))
          (if ps.elite ≠ 0
            then traceElite ps (cloneAnt (locBest L col)) (scentAfter ps L col w)
            else scentAfter ps L col w) hrest
      refine ⟨cloneAnt (locBest L col) :: ys, ?_, ?_, ?_, ?_, ?_⟩
      · rw [heq]
        rfl
      · simpa using Nat.succ_le_succ hlen
      · intro y hy
        rcases List.mem_cons.mp hy with h1 | h1
        · rw [h1, cloneAnt_eq]
          exact himp
        · exact lt_trans (by simpa [cloneAnt_eq] using hlt y h1) himp
      · rw [List.chain'_cons']
        refine ⟨?_, hchain⟩
        intro y hy
        have hmem : y ∈ ys := List.mem_of_mem_head? hy
        simpa [cloneAnt_eq] using hlt y hmem
      · intro y hy
        rcases List.mem_cons.mp hy with h1 | h1
        · exact ⟨col, List.mem_cons_self _ _, h1⟩
        · obtain ⟨c, hc, hyc⟩ := horig y h1
          exact ⟨c, List.mem_cons_of_mem _ hc, hyc⟩
    · rw [if_neg himp]
      obtain ⟨ys, heq, hlen, hlt, hchain, horig⟩ :=
        ih g
          (if ps.elite ≠ 0
            then traceElite ps g (scentAfter ps L col w)
            else scentAfter ps L col w) hrest
      refine ⟨ys, heq, Nat.le_succ_of_le hlen, hlt, hchain, ?_⟩
      intro y hy
      obtain ⟨c, hc, hyc⟩ := horig y hy
      exact ⟨c, List.mem_cons_of_mem _ hc, hyc⟩

/-- C5: with `limit >= 1` iterations each producing a nonempty colony,
`solutions` yields between 1 and `limit` snapshots; a snapshot is yielded
only when the best-known solution strictly improves, so the yielded
distances are strictly decreasing, and every yielded element is a cloned
snapshot of the best ant of some iteration's colony. -/
theorem solutions_spec (ps : Params) (L : Nat → ℚ)
    (cols : List (List SimAnt)) (limit : Nat) (hlen : cols.length = limit)
    (hlim : 1 ≤ limit) (hne : ∀ col ∈ cols, col ≠ []) :
    ∃ ys, solutionsRun ps L cols = some ys ∧
      1 ≤ ys.length ∧ ys.length ≤ limit ∧
      List.Chain' (fun a b => b.distance < a.distance) ys ∧
      ∀ y ∈ ys, ∃ col ∈ cols, y = cloneAnt (locBest L col) := by
  cases cols with
  | nil =>
    rw [← hlen] at hlim
    simp at hlim
  | cons col0 rest =>
    have hcol0 : col0 ≠ [] := hne col0 (List.mem_cons_self _ _)
    have hrest : ∀ c ∈ rest, c ≠ [] := fun c hc => hne c (List.mem_cons_of_mem _ hc)
    obtain ⟨ys, heq, hlenys, hlt, hchain, horig⟩ :=
      solutionsLoop_inv ps L rest (cloneAnt (locBest L col0))
        (if ps.elite ≠ 0
          then traceElite ps (cloneAnt (locBest L col0))
            (scentAfter ps L col0 (resetPheromone ps (fun _ => 0)))
          else scentAfter ps L col0 (resetPheromone ps (fun _ => 0))) hrest
    refine ⟨cloneAnt (locBest L col0) :: ys, ?_, ?_, ?_, ?_, ?_⟩
    · rw [solutionsRun, solutionsLoop_first ps L col0 rest _ hcol0, heq]
      rfl
    · simp
    · rw [← hlen]
      simpa using Nat.succ_le_succ hlenys
    · rw [List.chain'_cons']
      refine ⟨?_, hchain⟩
      intro y hy
      have hmem : y ∈ ys := List.mem_of_mem_head? hy
      simpa [cloneAnt_eq] using hlt y hmem
    · intro y hy
      rcases List.mem_cons.mp hy with h1 | h1
      · exact ⟨col0, List.mem_cons_self _ _, h1⟩
      · obtain ⟨c, hc, hyc⟩ := horig y h1
        exact ⟨c, List.mem_cons_of_mem _ hc, hyc⟩

theorem solutions_spec_witness :
    ∃ ys, solutionsRun ⟨4/5, 1, 1/100, 1/2⟩ (fun _ => 1) [[⟨[0], [], 0⟩]]
        = some ys ∧
      1 ≤ ys.length ∧ ys.length ≤ 1 ∧
      List.Chain' (fun a b => b.distance < a.distance) ys ∧
      ∀ y ∈ ys, ∃ col ∈ [[(⟨[0], [], 0⟩ : SimAnt)]],
        y = cloneAnt (locBest (fun _ => 1) col) :=
  solutions_spec ⟨4/5, 1, 1/100, 1/2⟩ (fun _ => 1) [[⟨[0], [], 0⟩]] 1 rfl
    (le_refl 1) (by simp)


/-! ### Colony construction -/

/-- C3 (code evaluation at the failing input): with `ant_count = 0` on a
5-node world, `round_robin_ants` iterates over `range(0)` and creates no
ant at all — nothing in the code ever sets `ant_count` to the number of
nodes, contrary to the docstring (solver.py 113-116) and the spec. -/
theorem roundRobinAnts_zero_failing :
    roundRobinAnts [0, 1, 2, 3, 4] 0 = [] ∧
    (roundRobinAnts [0, 1, 2, 3, 4] 0).length ≠ 5 := by
  constructor
  · rfl
  · intro h
    simp [roundRobinAnts] at h

/-- C2 (code evaluation at the failing input): with `ant_count = 2` on a
3-node world, `random_ants` creates 3 ants, not `min(2, 3) = 2`: its loop
condition `self.ant_count > 0 and len(starts) > 0` never counts the ants
already created, so it pops every start node. -/
theorem randomAnts_count_failing :
    (randomAnts (fun _ => 0) 2 [0, 1, 2]).length = 3 ∧
    (3 : Nat) ≠ min 2 3 := by
  constructor
  · simp [randomAnts, randomAntsGo]
  · decide

end Pants
